import Mathlib

/-!
Verification of the deal risk scoring engine
(`src/risk_scoring_engine.py`, `src/utils.py`).

Real-valued quantities (probabilities, deal amounts, scores) are modelled as
rationals.  `numpy`'s `round` rounds half to even, which `rndHE` reproduces.
-/

namespace RiskEngine

/-- The three risk categories produced by the engine. -/
inductive RiskCat where
  | Low
  | Medium
  | High
deriving DecidableEq

/-- Round half to even, as numpy's `round` does on the integer grid. -/
def rndHE (x : ℚ) : ℤ :=
  if x - ⌊x⌋ < 1/2 then ⌊x⌋
  else if 1/2 < x - ⌊x⌋ then ⌊x⌋ + 1
  else if ⌊x⌋ % 2 = 0 then ⌊x⌋ else ⌊x⌋ + 1

/-- Embedding of `(risk_probabilities * 100).round(1)` from
`DealRiskScoringEngine.score_deals` (line 193): the predicted loss
probability times 100, rounded half-to-even at one decimal place. -/
def risk_score (p : ℚ) : ℚ := (rndHE (1000 * p) : ℚ) / 10

/-- Embedding of the `pd.cut` call of `DealRiskScoringEngine.score_deals`
(lines 196-201): bins `[0, 33, 66, 100]` with `include_lowest=True` and
right-closed intervals; values outside `[0, 100]` fall in no bin (`NaN`,
modelled as `none`). -/
def risk_category (s : ℚ) : Option RiskCat :=
  if s < 0 then none
  else if s ≤ 33 then some RiskCat.Low
  else if s ≤ 66 then some RiskCat.Medium
  else if s ≤ 100 then some RiskCat.High
  else none

/-- Embedding of `categorize_risk` from `src/utils.py` (lines 103-118). -/
def categorize_risk (risk_score : ℚ) : RiskCat :=
  if risk_score < 33 then RiskCat.Low
  else if risk_score < 66 then RiskCat.Medium
  else RiskCat.High

/-- One row of the input table (`load_and_prepare_data`): a sales deal.
Dates are omitted: none of the verified operations reads them. -/
structure Deal where
  deal_id : ℕ
  sales_rep_id : String
  industry : String
  region : String
  product_type : String
  lead_source : String
  deal_stage : String
  deal_amount : ℚ
  sales_cycle_days : ℚ
  outcome : String
deriving DecidableEq

/-- Embedding of `risk_outcome = (outcome == 'Lost').astype(int)`
(`load_and_prepare_data`, line 44). -/
def risk_outcome (d : Deal) : ℚ := if d.outcome = r"Lost" then 1 else 0

/-- Embedding of the five
`groupby(key)['risk_outcome'].transform(lambda x: 1 - x.mean())` features of
`engineer_features` (lines 64-82): one minus the mean of `risk_outcome` over
all deals of the dataset sharing the key value of `d` (including `d`). -/
def groupWinRate (df : List Deal) (key : Deal → String) (d : Deal) : ℚ :=
  1 - ((df.filter (fun e => key e = key d)).map risk_outcome).sum
        / ((df.filter (fun e => key e = key d)).length : ℚ)

/-- Feature 3 of `engineer_features` (line 65). -/
def industry_win_rate (df : List Deal) (d : Deal) : ℚ :=
  groupWinRate df (fun e => e.industry) d

/-- Feature 4 of `engineer_features` (line 69). -/
def region_win_rate (df : List Deal) (d : Deal) : ℚ :=
  groupWinRate df (fun e => e.region) d

/-- Feature 5 of `engineer_features` (line 73). -/
def product_win_rate (df : List Deal) (d : Deal) : ℚ :=
  groupWinRate df (fun e => e.product_type) d

/-- Feature 6 of `engineer_features` (line 77). -/
def lead_source_win_rate (df : List Deal) (d : Deal) : ℚ :=
  groupWinRate df (fun e => e.lead_source) d

/-- Feature 7 of `engineer_features` (line 81). -/
def rep_win_rate (df : List Deal) (d : Deal) : ℚ :=
  groupWinRate df (fun e => e.sales_rep_id) d

/-- Insertion into a sorted list, used to model the ascending sort behind
pandas' median. -/
def insertSorted (a : ℚ) : List ℚ → List ℚ
  | [] => [a]
  | b :: t => if a ≤ b then a :: b :: t else b :: insertSorted a t

/-- Ascending insertion sort. -/
def sortAsc (l : List ℚ) : List ℚ := l.foldr insertSorted []

/-- The median as pandas computes it: middle element of the sorted list for
odd length, average of the two middle elements for even length. -/
def median (l : List ℚ) : ℚ :=
  if l.length = 0 then 0
  else if l.length % 2 = 1 then (sortAsc l).getD (l.length / 2) 0
  else ((sortAsc l).getD (l.length / 2 - 1) 0 + (sortAsc l).getD (l.length / 2) 0) / 2

/-- The `(industry, product_type)` segment of a deal: embedding of the
`groupby(['industry', 'product_type'])` grouping of `engineer_features`
(line 85). -/
def segment (df : List Deal) (d : Deal) : List Deal :=
  df.filter (fun e => e.industry = d.industry ∧ e.product_type = d.product_type)

/-- Embedding of feature 8 of `engineer_features` (lines 85-86):
`deal_amount / segment-median of deal_amount`. -/
def deal_size_vs_segment (df : List Deal) (d : Deal) : ℚ :=
  d.deal_amount / median ((segment df d).map (fun e => e.deal_amount))

/-- Embedding of the `stage_order` dict of `engineer_features` (lines
89-95); `Series.map` on a dict yields `NaN` (here `none`) for keys absent
from the dict. -/
def stage_order (s : String) : Option ℤ :=
  if s = r"Demo" then some 1
  else if s = r"Qualified" then some 2
  else if s = r"Proposal" then some 3
  else if s = r"Negotiation" then some 4
  else if s = r"Closed" then some 5
  else none

/-- Embedding of `deal_stage_encoded = deal_stage.map(stage_order)`
(line 96). -/
def deal_stage_encoded (stage : String) : Option ℤ := stage_order stage

/-- The value the modeling steps actually consume: `fillna(0)` is applied to
the feature matrix in `train_model` (line 128) and `score_deals` (line 186),
so a missing stage code becomes `0`. -/
def stage_feature_filled (stage : String) : ℤ := (deal_stage_encoded stage).getD 0

/-- Modelled from the spec: the Scaler's fitted per-feature mean
(`StandardScaler`, used at lines 139-141 and 186-187; its implementation
lives in scikit-learn, outside this repository). -/
def colMean (c : List ℚ) : ℚ := c.sum / (c.length : ℚ)

/-- Modelled from the spec: the Scaler's fitted per-feature (population)
variance; the fitted standard deviation is its square root and is
characterized algebraically in the theorems. -/
def colVar (c : List ℚ) : ℚ :=
  ((c.map (fun x => (x - colMean c) ^ 2)).sum) / (c.length : ℚ)

/-- Modelled from the spec: the Scaler's transform `(x - mean) / std`,
applied entrywise with the fitted statistics. -/
def scalerTransform (mean std : ℚ) (c : List ℚ) : List ℚ :=
  c.map (fun x => (x - mean) / std)

/-- Indices of Lost records (`true` labels) of a label vector. -/
def lostIdx (y : List Bool) : List ℕ :=
  (List.range y.length).filter (fun i => y.getD i false)

/-- Indices of Won records (`false` labels) of a label vector. -/
def wonIdx (y : List Bool) : List ℕ :=
  (List.range y.length).filter (fun i => !(y.getD i false))

/-- Modelled from the spec: the evaluation-set size of the Partitioner,
`round(0.2 * N)` (the `train_test_split(test_size=0.2)` call of
`train_model`, lines 132-134; the splitter itself lives in scikit-learn,
outside this repository). -/
def evalSize (N : ℕ) : ℕ := (round ((N : ℚ) / 5)).toNat

/-- Modelled from the spec: the number of Lost records the stratified
Partitioner places in the evaluation set — the overall Lost proportion
applied to the evaluation size, within rounding. -/
def evalLostCount (y : List Bool) : ℕ :=
  (round (((evalSize y.length : ℚ) * ((lostIdx y).length : ℚ)) / (y.length : ℚ))).toNat

/-- Modelled from the spec: evaluation index set of the stratified split —
the stratum quota of Lost indices plus the remaining quota of Won indices.
The pseudorandom choice within each stratum is not modelled; the seed is
kept as an explicit argument the function is constant in. -/
def testIdx (y : List Bool) (_seed : ℕ) : List ℕ :=
  (lostIdx y).take (evalLostCount y)
    ++ (wonIdx y).take (evalSize y.length - evalLostCount y)

/-- Modelled from the spec: training index set — the complement of the
evaluation index set. -/
def trainIdx (y : List Bool) (seed : ℕ) : List ℕ :=
  (List.range y.length).filter (fun i => decide (i ∉ testIdx y seed))

/-- Modelled from the spec: the Partitioner, taking the feature matrix, the
label vector and the seed, and returning the train and evaluation index
sets. -/
def trainTestSplit (_X : List (List ℚ)) (y : List Bool) (seed : ℕ) :
    List ℕ × List ℕ :=
  (trainIdx y seed, testIdx y seed)

/-- Fraction of Lost labels among a list of record indices. -/
def fracLost (y : List Bool) (s : List ℕ) : ℚ :=
  ((s.countP (fun i => y.getD i false)) : ℚ) / (s.length : ℚ)

/-- A concrete label vector: 10 records, 4 of them Lost. -/
def wy : List Bool :=
  [true, true, true, true, false, false, false, false, false, false]

/-- A concrete Lost deal forming a single-member group. -/
def c4Deal : Deal :=
  ⟨1, r"R1", r"Tech", r"NA", r"SaaS", r"Web", r"Demo", 100, 30, r"Lost"⟩

/-- A concrete deal with amount 1 in the segment `(Tech, SaaS)`. -/
def cexDealA : Deal :=
  ⟨1, r"R1", r"Tech", r"NA", r"SaaS", r"Web", r"Demo", 1, 10, r"Won"⟩

/-- A concrete deal with amount 3 in the same segment `(Tech, SaaS)`. -/
def cexDealB : Deal :=
  ⟨2, r"R2", r"Tech", r"EU", r"SaaS", r"Ads", r"Demo", 3, 20, r"Won"⟩

/-- A concrete deal forming a single-member segment. -/
def c6Deal : Deal :=
  ⟨3, r"R3", r"Fin", r"NA", r"Ent", r"Web", r"Demo", 7, 5, r"Won"⟩

theorem floor_le_rndHE (x : ℚ) : ⌊x⌋ ≤ rndHE x := by
  unfold rndHE
  split_ifs <;> omega

theorem rndHE_le_floor_add_one (x : ℚ) : rndHE x ≤ ⌊x⌋ + 1 := by
  unfold rndHE
  split_ifs <;> omega

theorem rndHE_mono {x y : ℚ} (h : x ≤ y) : rndHE x ≤ rndHE y := by
  have hf : ⌊x⌋ ≤ ⌊y⌋ := Int.floor_mono h
  rcases lt_or_eq_of_le hf with hlt | heq
  · have h1 : rndHE x ≤ ⌊x⌋ + 1 := rndHE_le_floor_add_one x
    have h2 : ⌊y⌋ ≤ rndHE y := floor_le_rndHE y
    omega
  · unfold rndHE
    rw [← heq]
    have hx0 : (⌊x⌋ : ℚ) ≤ x := Int.floor_le x
    have hy1 : y < ⌊y⌋ + 1 := Int.lt_floor_add_one y
    rw [← heq] at hy1
    split_ifs <;> first | omega | linarith

theorem rndHE_intCast (z : ℤ) : rndHE (z : ℚ) = z := by
  unfold rndHE
  simp

/-- C1: for every deal, the risk categorization performed by the Scorer is a
pure deterministic function of `risk_score` assigning Low on `[0,33]`,
Medium on `(33,66]` and High on `(66,100]`; in particular 33.0 maps to Low,
33.1 to Medium, 66.0 to Medium and 66.1 to High. -/
theorem risk_category_intervals (s : ℚ) :
    (0 ≤ s → s ≤ 33 → risk_category s = some RiskCat.Low)
    ∧ (33 < s → s ≤ 66 → risk_category s = some RiskCat.Medium)
    ∧ (66 < s → s ≤ 100 → risk_category s = some RiskCat.High)
    ∧ risk_category 33 = some RiskCat.Low
    ∧ risk_category (331/10) = some RiskCat.Medium
    ∧ risk_category 66 = some RiskCat.Medium
    ∧ risk_category (661/10) = some RiskCat.High := by
  unfold risk_category
  refine ⟨?_, ?_, ?_, ?_, ?_, ?_, ?_⟩ <;>
    first
      | (intro h1 h2; split_ifs <;> first | rfl | linarith)
      | (norm_num)

theorem risk_category_intervals_witness :
    risk_category 10 = some RiskCat.Low :=
  (risk_category_intervals 10).1 (by norm_num) (by norm_num)

/-- C2: for every deal, `risk_score` equals the predicted loss probability
times 100, rounded to one decimal place, and always lies in `[0, 100]`. -/
theorem risk_score_range (p : ℚ) (h0 : 0 ≤ p) (h1 : p ≤ 1) :
    risk_score p = (rndHE (100 * p * 10) : ℚ) / 10
    ∧ 0 ≤ risk_score p ∧ risk_score p ≤ 100 := by
  have he : 100 * p * 10 = 1000 * p := by ring
  have hlo : (0 : ℤ) ≤ rndHE (1000 * p) := by
    have h := rndHE_mono (show (((0:ℤ)):ℚ) ≤ 1000 * p by push_cast; linarith)
    rwa [rndHE_intCast] at h
  have hhi : rndHE (1000 * p) ≤ 1000 := by
    have h := rndHE_mono (show 1000 * p ≤ (((1000:ℤ)):ℚ) by push_cast; linarith)
    rwa [rndHE_intCast] at h
  have hlo' : (0 : ℚ) ≤ (rndHE (1000 * p) : ℚ) := by exact_mod_cast hlo
  have hhi' : ((rndHE (1000 * p) : ℚ)) ≤ 1000 := by exact_mod_cast hhi
  unfold risk_score
  rw [he]
  refine ⟨rfl, by linarith, by linarith⟩

theorem risk_score_range_witness :
    risk_score (1/2) = (rndHE (100 * (1/2) * 10) : ℚ) / 10
    ∧ 0 ≤ risk_score (1/2) ∧ risk_score (1/2) ≤ 100 :=
  risk_score_range (1/2) (by norm_num) (by norm_num)

/-- C3: the probability-to-score mapping is monotone non-decreasing: a deal
with a larger or equal predicted loss probability receives a risk score
greater than or equal to the other deal's. -/
theorem risk_score_monotone (p q : ℚ) (h : p ≤ q) :
    risk_score p ≤ risk_score q := by
  unfold risk_score
  have h1 := rndHE_mono (show 1000 * p ≤ 1000 * q by linarith)
  have h2 : ((rndHE (1000 * p) : ℚ)) ≤ (rndHE (1000 * q) : ℚ) := by
    exact_mod_cast h1
  linarith

theorem risk_score_monotone_witness :
    risk_score (1/4) ≤ risk_score (3/4) :=
  risk_score_monotone (1/4) (3/4) (by norm_num)

/-- C10 (counterexample): the standalone `categorize_risk` of `utils.py`
disagrees with the Scorer's bin-based categorization at the boundary score
33.0: the bins put 33.0 in Low, `categorize_risk` returns Medium. -/
theorem categorize_risk_boundary_cex :
    risk_category 33 = some RiskCat.Low
    ∧ categorize_risk 33 = RiskCat.Medium
    ∧ risk_category 33 ≠ some (categorize_risk 33) := by
  have h1 : risk_category 33 = some RiskCat.Low := by norm_num [risk_category]
  have h2 : categorize_risk 33 = RiskCat.Medium := by norm_num [categorize_risk]
  refine ⟨h1, h2, ?_⟩
  rw [h1, h2]
  decide

/-- C10 (amended): `categorize_risk` of `utils.py` and the Scorer's
`pd.cut` binning agree at every score in `[0, 100]` except the boundary
scores 33.0 and 66.0, where `categorize_risk` returns Medium (resp. High)
while the binning returns Low (resp. Medium). -/
theorem categorize_risk_agrees_off_boundary (s : ℚ)
    (h0 : 0 ≤ s) (h1 : s ≤ 100) (h33 : s ≠ 33) (h66 : s ≠ 66) :
    risk_category s = some (categorize_risk s) := by
  have h33' : s < 33 ∨ 33 < s := h33.lt_or_lt
  have h66' : s < 66 ∨ 66 < s := h66.lt_or_lt
  unfold risk_category categorize_risk
  rcases h33' with h | h <;> rcases h66' with h' | h' <;>
    split_ifs <;> first | rfl | linarith

theorem categorize_risk_agrees_off_boundary_witness :
    risk_category 50 = some (categorize_risk 50) :=
  categorize_risk_agrees_off_boundary 50 (by norm_num) (by norm_num)
    (by norm_num) (by norm_num)

/-- C5 (counterexample): an unmapped deal stage does not raise an error in
feature engineering: `deal_stage.map(stage_order)` yields a missing value,
and the later `fillna(0)` turns it into the feature value 0. -/
theorem stage_code_no_error_cex :
    deal_stage_encoded r"Discovery" = none
    ∧ stage_feature_filled r"Discovery" = 0 :=
  ⟨rfl, rfl⟩

/-- C5 (amended): `stage_code` applies the fixed ordinal mapping Demo to 1,
Qualified to 2, Proposal to 3, Negotiation to 4 and Closed to 5; a deal
stage outside these five values yields a missing value (`NaN`), which the
modeling steps fill with 0 — no error is raised. -/
theorem stage_code_mapping_fillna :
    stage_order r"Demo" = some 1
    ∧ stage_order r"Qualified" = some 2
    ∧ stage_order r"Proposal" = some 3
    ∧ stage_order r"Negotiation" = some 4
    ∧ stage_order r"Closed" = some 5
    ∧ (∀ s : String, s ≠ r"Demo" → s ≠ r"Qualified" → s ≠ r"Proposal" →
        s ≠ r"Negotiation" → s ≠ r"Closed" →
        deal_stage_encoded s = none ∧ stage_feature_filled s = 0) := by
  refine ⟨rfl, rfl, rfl, rfl, rfl, ?_⟩
  intro s h1 h2 h3 h4 h5
  unfold stage_feature_filled deal_stage_encoded stage_order
  rw [if_neg h1, if_neg h2, if_neg h3, if_neg h4, if_neg h5]
  exact ⟨rfl, rfl⟩

theorem stage_code_mapping_fillna_witness :
    deal_stage_encoded r"Qualification" = none
    ∧ stage_feature_filled r"Qualification" = 0 :=
  stage_code_mapping_fillna.2.2.2.2.2 r"Qualification"
    (by decide) (by decide) (by decide) (by decide) (by decide)

/-- C9: a feature column that is already centered and of unit variance is
left unchanged by the Scaler's transform `(x - mean) / std` with the
statistics fitted on it: the fitted standardization is idempotent on its
own output.  The fitted standard deviation is characterized as the
nonnegative square root of the fitted variance. -/
theorem scaler_idempotent (c : List ℚ) (std : ℚ)
    (hm : colMean c = 0) (hv : colVar c = 1)
    (hs0 : 0 ≤ std) (hs : std ^ 2 = colVar c) :
    scalerTransform (colMean c) std c = c := by
  have hstd : std = 1 := by
    rw [hv] at hs
    have hfact : (std - 1) * (std + 1) = 0 := by ring_nf; linarith
    rcases mul_eq_zero.mp hfact with h | h
    · linarith
    · linarith
  rw [hm, hstd]
  unfold scalerTransform
  simp

theorem scaler_idempotent_witness :
    scalerTransform (colMean [-1, 1]) 1 [-1, 1] = [-1, 1] :=
  scaler_idempotent [-1, 1] 1
    (by norm_num [colMean]) (by norm_num [colVar, colMean])
    (by norm_num) (by norm_num [colVar, colMean])

/-- C8: the Partitioner is a deterministic function of the feature matrix,
the label vector and the seed: two runs on identical inputs produce
identical train and evaluation index sets. -/
theorem split_deterministic (X₁ X₂ : List (List ℚ)) (y₁ y₂ : List Bool)
    (s₁ s₂ : ℕ) (hX : X₁ = X₂) (hy : y₁ = y₂) (hs : s₁ = s₂) :
    trainTestSplit X₁ y₁ s₁ = trainTestSplit X₂ y₂ s₂ := by
  subst hX; subst hy; subst hs; rfl

theorem sum_map_risk_outcome (g : List Deal) :
    (g.map risk_outcome).sum
      = ((g.countP (fun e => e.outcome = r"Lost")) : ℚ) := by
  induction g with
  | nil => simp
  | cons a t ih =>
    rw [List.map_cons, List.sum_cons, List.countP_cons, ih]
    unfold risk_outcome
    by_cases h : a.outcome = r"Lost"
    · simp [h]
      ring
    · simp [h]

/-- C4: each of the five group win-rate features equals one minus the mean
of the Lost indicator over all deals of the dataset sharing the deal's key
value; the deal itself belongs to its group, and a group consisting of a
single Lost deal gets win rate exactly 0, which is the unmodified value of
the feature (no smoothing). -/
theorem group_win_rate_spec (df : List Deal) (d : Deal) (hd : d ∈ df) :
    industry_win_rate df d
        = 1 - ((df.filter (fun e => e.industry = d.industry)).countP
                (fun e => e.outcome = r"Lost") : ℚ)
              / ((df.filter (fun e => e.industry = d.industry)).length : ℚ)
    ∧ region_win_rate df d
        = 1 - ((df.filter (fun e => e.region = d.region)).countP
                (fun e => e.outcome = r"Lost") : ℚ)
              / ((df.filter (fun e => e.region = d.region)).length : ℚ)
    ∧ product_win_rate df d
        = 1 - ((df.filter (fun e => e.product_type = d.product_type)).countP
                (fun e => e.outcome = r"Lost") : ℚ)
              / ((df.filter (fun e => e.product_type = d.product_type)).length : ℚ)
    ∧ lead_source_win_rate df d
        = 1 - ((df.filter (fun e => e.lead_source = d.lead_source)).countP
                (fun e => e.outcome = r"Lost") : ℚ)
              / ((df.filter (fun e => e.lead_source = d.lead_source)).length : ℚ)
    ∧ rep_win_rate df d
        = 1 - ((df.filter (fun e => e.sales_rep_id = d.sales_rep_id)).countP
                (fun e => e.outcome = r"Lost") : ℚ)
              / ((df.filter (fun e => e.sales_rep_id = d.sales_rep_id)).length : ℚ)
    ∧ (∀ key : Deal → String, d ∈ df.filter (fun e => key e = key d))
    ∧ (∀ key : Deal → String,
        (df.filter (fun e => key e = key d)).length = 1 →
        d.outcome = r"Lost" → groupWinRate df key d = 0) := by
  refine ⟨?_, ?_, ?_, ?_, ?_, ?_, ?_⟩
  · unfold industry_win_rate groupWinRate; rw [sum_map_risk_outcome]
  · unfold region_win_rate groupWinRate; rw [sum_map_risk_outcome]
  · unfold product_win_rate groupWinRate; rw [sum_map_risk_outcome]
  · unfold lead_source_win_rate groupWinRate; rw [sum_map_risk_outcome]
  · unfold rep_win_rate groupWinRate; rw [sum_map_risk_outcome]
  · intro key; exact List.mem_filter.mpr ⟨hd, by simp⟩
  · intro key hlen hlost
    have hmem : d ∈ df.filter (fun e => key e = key d) :=
      List.mem_filter.mpr ⟨hd, by simp⟩
    obtain ⟨a, ha⟩ := List.length_eq_one.mp hlen
    rw [ha] at hmem
    have had : d = a := by simpa using hmem
    subst had
    unfold groupWinRate
    rw [ha]
    norm_num [risk_outcome, hlost]

theorem group_win_rate_spec_witness :
    groupWinRate [c4Deal] (fun e => e.industry) c4Deal = 0 :=
  (group_win_rate_spec [c4Deal] c4Deal (by simp)).2.2.2.2.2.2
    (fun e => e.industry) (by simp) rfl

theorem median_singleton (a : ℚ) : median [a] = a := by
  simp [median, sortAsc, insertSorted]

/-- C6 (counterexample): a dataset whose two deals lie in a single
`(industry, product_type)` segment but have different amounts does not give
every row the feature value 1.0: with amounts 1 and 3 the first row gets
`1 / median [1, 3] = 1/2`. -/
theorem single_segment_not_one_cex :
    cexDealA.industry = cexDealB.industry
    ∧ cexDealA.product_type = cexDealB.product_type
    ∧ deal_size_vs_segment [cexDealA, cexDealB] cexDealA = 1/2
    ∧ deal_size_vs_segment [cexDealA, cexDealB] cexDealA ≠ 1 := by
  have h3 : deal_size_vs_segment [cexDealA, cexDealB] cexDealA = 1/2 := by
    norm_num [deal_size_vs_segment, segment, median, sortAsc, insertSorted,
      cexDealA, cexDealB]
  exact ⟨rfl, rfl, h3, by rw [h3]; norm_num⟩

/-- C6 (amended): `amount_vs_segment` equals the deal amount divided by the
median amount of the deal's `(industry, product_type)` segment; a deal
whose segment contains only itself gets ratio 1, and more generally the
ratio is 1 exactly when the deal's amount equals its segment's median —
but not for every row of a single-segment dataset. -/
theorem deal_size_vs_segment_spec (df : List Deal) (d : Deal) :
    deal_size_vs_segment df d
        = d.deal_amount / median ((segment df d).map (fun e => e.deal_amount))
    ∧ (0 < d.deal_amount → segment df d = [d] →
        deal_size_vs_segment df d = 1)
    ∧ (0 < d.deal_amount →
        d.deal_amount = median ((segment df d).map (fun e => e.deal_amount)) →
        deal_size_vs_segment df d = 1) := by
  refine ⟨rfl, ?_, ?_⟩
  · intro hpos hseg
    unfold deal_size_vs_segment
    rw [hseg, List.map_singleton, median_singleton]
    exact div_self (ne_of_gt hpos)
  · intro hpos hmed
    unfold deal_size_vs_segment
    rw [← hmed]
    exact div_self (ne_of_gt hpos)

theorem deal_size_vs_segment_spec_witness :
    deal_size_vs_segment [c6Deal] c6Deal = 1 :=
  (deal_size_vs_segment_spec [c6Deal] c6Deal).2.1
    (by norm_num [c6Deal]) (by simp [segment])

theorem split_deterministic_witness :
    trainTestSplit [[1], [2]] [true, false] 42
      = trainTestSplit [[1], [2]] [true, false] 42 :=
  split_deterministic [[1], [2]] [[1], [2]] [true, false] [true, false]
    42 42 rfl rfl rfl

theorem round_toNat_le {x : ℚ} {m : ℕ} (h : x ≤ m) : (round x).toNat ≤ m := by
  rw [round_eq, Int.toNat_le]
  have h2 : ⌊x + 1/2⌋ < (m : ℤ) + 1 := Int.floor_lt.mpr (by push_cast; linarith)
  omega

theorem le_round_toNat_int {x : ℚ} {z : ℤ} (hx : (z : ℚ) ≤ x) (hx0 : 0 ≤ x) :
    z ≤ ((round x).toNat : ℤ) := by
  have h2 : z ≤ round x := by
    rw [round_eq]
    exact Int.le_floor.mpr (by linarith)
  have h3 : 0 ≤ round x := by
    rw [round_eq]
    exact Int.floor_nonneg.mpr (by linarith)
  omega

theorem round_toNat_cast {x : ℚ} (hx : 0 ≤ x) :
    (((round x).toNat : ℤ) : ℚ) = ((round x : ℤ) : ℚ) := by
  have h3 : 0 ≤ round x := by
    rw [round_eq]
    exact Int.floor_nonneg.mpr (by linarith)
  rw [Int.toNat_of_nonneg h3]

theorem countP_add_countP_not (l : List α) (p : α → Bool) :
    l.countP p + l.countP (fun a => !(p a)) = l.length := by
  induction l with
  | nil => rfl
  | cons a t ih =>
    rw [List.countP_cons, List.countP_cons, List.length_cons]
    by_cases h : p a = true <;> simp [h] <;> omega

theorem evalSize_le (N : ℕ) : evalSize N ≤ N := by
  unfold evalSize
  apply round_toNat_le
  have h0 : (0:ℚ) ≤ (N:ℚ) := Nat.cast_nonneg N
  linarith

theorem lostIdx_length_le (y : List Bool) : (lostIdx y).length ≤ y.length := by
  unfold lostIdx
  calc ((List.range y.length).filter (fun i => y.getD i false)).length
      ≤ (List.range y.length).length := List.length_filter_le _ _
    _ = y.length := List.length_range y.length

theorem length_lostIdx_add_wonIdx (y : List Bool) :
    (lostIdx y).length + (wonIdx y).length = y.length := by
  unfold lostIdx wonIdx
  rw [← List.countP_eq_length_filter, ← List.countP_eq_length_filter,
    countP_add_countP_not, List.length_range]

theorem evalLostCount_le_lost (y : List Bool) :
    evalLostCount y ≤ (lostIdx y).length := by
  unfold evalLostCount
  apply round_toNat_le
  by_cases hN : y.length = 0
  · have hL : (lostIdx y).length = 0 := by
      have := lostIdx_length_le y
      omega
    rw [hL, hN]
    simp
  · have hN' : (0:ℚ) < (y.length : ℚ) := by
      exact_mod_cast Nat.pos_of_ne_zero hN
    rw [div_le_iff₀ hN']
    have ht : (evalSize y.length : ℚ) ≤ (y.length : ℚ) := by
      exact_mod_cast evalSize_le y.length
    have hL0 : (0:ℚ) ≤ ((lostIdx y).length : ℚ) := Nat.cast_nonneg _
    nlinarith

theorem evalLostCount_le_evalSize (y : List Bool) :
    evalLostCount y ≤ evalSize y.length := by
  unfold evalLostCount
  apply round_toNat_le
  by_cases hN : y.length = 0
  · rw [hN]
    simp
  · have hN' : (0:ℚ) < (y.length : ℚ) := by
      exact_mod_cast Nat.pos_of_ne_zero hN
    rw [div_le_iff₀ hN']
    have hL : ((lostIdx y).length : ℚ) ≤ (y.length : ℚ) := by
      exact_mod_cast lostIdx_length_le y
    have ht0 : (0:ℚ) ≤ (evalSize y.length : ℚ) := Nat.cast_nonneg _
    nlinarith

theorem evalSize_sub_le_won (y : List Bool) :
    evalSize y.length - evalLostCount y ≤ (wonIdx y).length := by
  have hLW := length_lostIdx_add_wonIdx y
  have hL := lostIdx_length_le y
  have ht := evalSize_le y.length
  by_cases hN : y.length = 0
  · have : evalSize y.length = 0 := by have := evalSize_le y.length; omega
    omega
  · have hN' : (0:ℚ) < (y.length : ℚ) := by
      exact_mod_cast Nat.pos_of_ne_zero hN
    have hkey : ((evalSize y.length : ℤ) + ((lostIdx y).length : ℤ) - (y.length : ℤ))
        ≤ ((evalLostCount y : ℕ) : ℤ) := by
      unfold evalLostCount
      apply le_round_toNat_int
      · rw [le_div_iff₀ hN']
        have ht' : (evalSize y.length : ℚ) ≤ (y.length : ℚ) := by
          exact_mod_cast evalSize_le y.length
        have hL' : ((lostIdx y).length : ℚ) ≤ (y.length : ℚ) := by
          exact_mod_cast lostIdx_length_le y
        push_cast
        nlinarith
      · positivity
    omega

theorem testIdx_length (y : List Bool) (s : ℕ) :
    (testIdx y s).length = evalSize y.length := by
  unfold testIdx
  rw [List.length_append, List.length_take, List.length_take]
  have h1 := evalLostCount_le_lost y
  have h2 := evalSize_sub_le_won y
  have h3 := evalLostCount_le_evalSize y
  omega

theorem mem_lostIdx {y : List Bool} {i : ℕ} (h : i ∈ lostIdx y) :
    i < y.length ∧ y.getD i false = true := by
  unfold lostIdx at h
  rw [List.mem_filter] at h
  exact ⟨List.mem_range.mp h.1, h.2⟩

theorem mem_wonIdx {y : List Bool} {i : ℕ} (h : i ∈ wonIdx y) :
    i < y.length ∧ y.getD i false = false := by
  unfold wonIdx at h
  rw [List.mem_filter] at h
  refine ⟨List.mem_range.mp h.1, ?_⟩
  have h2 := h.2
  simp only [Bool.not_eq_true'] at h2
  exact h2

theorem lostIdx_nodup (y : List Bool) : (lostIdx y).Nodup :=
  (List.nodup_range y.length).filter _

theorem wonIdx_nodup (y : List Bool) : (wonIdx y).Nodup :=
  (List.nodup_range y.length).filter _

theorem testIdx_mem_lt {y : List Bool} {s i : ℕ} (h : i ∈ testIdx y s) :
    i < y.length := by
  unfold testIdx at h
  rcases List.mem_append.mp h with h | h
  · exact (mem_lostIdx ((List.take_sublist _ _).subset h)).1
  · exact (mem_wonIdx ((List.take_sublist _ _).subset h)).1

theorem trainIdx_mem_lt {y : List Bool} {s i : ℕ} (h : i ∈ trainIdx y s) :
    i < y.length := by
  unfold trainIdx at h
  rw [List.mem_filter] at h
  exact List.mem_range.mp h.1

theorem train_test_disjoint (y : List Bool) (s : ℕ) :
    List.Disjoint (trainIdx y s) (testIdx y s) := by
  intro a ha hb
  unfold trainIdx at ha
  rw [List.mem_filter] at ha
  exact (of_decide_eq_true ha.2) hb

theorem train_test_cover (y : List Bool) (s : ℕ) :
    ∀ i, i < y.length → i ∈ trainIdx y s ∨ i ∈ testIdx y s := by
  intro i hi
  by_cases h : i ∈ testIdx y s
  · exact Or.inr h
  · refine Or.inl ?_
    unfold trainIdx
    rw [List.mem_filter]
    exact ⟨List.mem_range.mpr hi, decide_eq_true h⟩

theorem testIdx_countP_lost (y : List Bool) (s : ℕ) :
    (testIdx y s).countP (fun i => y.getD i false) = evalLostCount y := by
  unfold testIdx
  rw [List.countP_append]
  have h1 : ((lostIdx y).take (evalLostCount y)).countP (fun i => y.getD i false)
      = ((lostIdx y).take (evalLostCount y)).length := by
    rw [List.countP_eq_length]
    intro a ha
    exact (mem_lostIdx ((List.take_sublist _ _).subset ha)).2
  have h2 : ((wonIdx y).take (evalSize y.length - evalLostCount y)).countP
      (fun i => y.getD i false) = 0 := by
    rw [List.countP_eq_zero]
    intro a ha
    have hw := (mem_wonIdx ((List.take_sublist _ _).subset ha)).2
    intro hcontra
    rw [hw] at hcontra
    exact Bool.false_ne_true hcontra
  rw [h1, h2, List.length_take]
  have := evalLostCount_le_lost y
  omega

theorem trainIdx_countP_lost (y : List Bool) (s : ℕ) :
    (trainIdx y s).countP (fun i => y.getD i false)
      = (lostIdx y).length - evalLostCount y := by
  unfold trainIdx
  rw [List.countP_filter]
  have hcomm : (fun i => y.getD i false && decide (i ∉ testIdx y s))
      = (fun i => decide (i ∉ testIdx y s) && y.getD i false) := by
    funext i
    exact Bool.and_comm _ _
  rw [hcomm, ← List.countP_filter]
  have hlost : (List.range y.length).filter (fun i => y.getD i false) = lostIdx y := rfl
  rw [hlost]
  conv_lhs => rw [← List.take_append_drop (evalLostCount y) (lostIdx y)]
  rw [List.countP_append]
  have htake : ((lostIdx y).take (evalLostCount y)).countP
      (fun i => decide (i ∉ testIdx y s)) = 0 := by
    rw [List.countP_eq_zero]
    intro a ha
    simp only [decide_eq_true_eq, not_not]
    unfold testIdx
    exact List.mem_append_left _ ha
  have hdrop : ((lostIdx y).drop (evalLostCount y)).countP
      (fun i => decide (i ∉ testIdx y s))
      = ((lostIdx y).drop (evalLostCount y)).length := by
    rw [List.countP_eq_length]
    intro a ha
    simp only [decide_eq_true_eq]
    intro hmem
    rcases List.mem_append.mp hmem with hh | hh
    · exact (List.disjoint_take_drop (lostIdx_nodup y) le_rfl) hh ha
    · have h1 := (mem_lostIdx ((List.drop_sublist _ _).subset ha)).2
      have h2 := (mem_wonIdx ((List.take_sublist _ _).subset hh)).2
      rw [h1] at h2
      simp at h2
  rw [htake, hdrop, List.length_drop]
  omega

theorem trainIdx_countP_won (y : List Bool) (s : ℕ) :
    (trainIdx y s).countP (fun i => !(y.getD i false))
      = (wonIdx y).length - (evalSize y.length - evalLostCount y) := by
  unfold trainIdx
  rw [List.countP_filter]
  have hcomm : (fun i => !(y.getD i false) && decide (i ∉ testIdx y s))
      = (fun i => decide (i ∉ testIdx y s) && !(y.getD i false)) := by
    funext i
    exact Bool.and_comm _ _
  rw [hcomm, ← List.countP_filter]
  have hwon : (List.range y.length).filter (fun i => !(y.getD i false)) = wonIdx y := rfl
  rw [hwon]
  conv_lhs =>
    rw [← List.take_append_drop (evalSize y.length - evalLostCount y) (wonIdx y)]
  rw [List.countP_append]
  have htake : ((wonIdx y).take (evalSize y.length - evalLostCount y)).countP
      (fun i => decide (i ∉ testIdx y s)) = 0 := by
    rw [List.countP_eq_zero]
    intro a ha
    simp only [decide_eq_true_eq, not_not]
    unfold testIdx
    exact List.mem_append_right _ ha
  have hdrop : ((wonIdx y).drop (evalSize y.length - evalLostCount y)).countP
      (fun i => decide (i ∉ testIdx y s))
      = ((wonIdx y).drop (evalSize y.length - evalLostCount y)).length := by
    rw [List.countP_eq_length]
    intro a ha
    simp only [decide_eq_true_eq]
    intro hmem
    rcases List.mem_append.mp hmem with hh | hh
    · have h1 := (mem_wonIdx ((List.drop_sublist _ _).subset ha)).2
      have h2 := (mem_lostIdx ((List.take_sublist _ _).subset hh)).2
      rw [h1] at h2
      simp at h2
    · exact (List.disjoint_take_drop (wonIdx_nodup y) le_rfl) hh ha
  rw [htake, hdrop, List.length_drop]
  omega

theorem trainIdx_length (y : List Bool) (s : ℕ) :
    (trainIdx y s).length = y.length - evalSize y.length := by
  have hsplit := countP_add_countP_not (trainIdx y s) (fun i => y.getD i false)
  rw [trainIdx_countP_lost, trainIdx_countP_won] at hsplit
  have hLW := length_lostIdx_add_wonIdx y
  have h1 := evalLostCount_le_lost y
  have h2 := evalSize_sub_le_won y
  have h3 := evalLostCount_le_evalSize y
  have h4 := evalSize_le y.length
  omega

theorem round_toNat_cast_q {x : ℚ} (hx : 0 ≤ x) :
    (((round x).toNat : ℕ) : ℚ) = ((round x : ℤ) : ℚ) := by
  have h3 : 0 ≤ round x := by
    rw [round_eq]
    exact Int.floor_nonneg.mpr (by linarith)
  exact_mod_cast congrArg (fun z : ℤ => (z : ℚ)) (Int.toNat_of_nonneg h3)

theorem frac_bound_algebra (t n l r : ℚ) (ht : 0 < t) (htn : t < n)
    (hr : |t * l / n - r| ≤ 1/2) :
    |(l - r)/(n - t) - r/t| ≤ 1 / min (n - t) t := by
  have hn : (0:ℚ) < n := lt_trans ht htn
  have hnt : (0:ℚ) < n - t := by linarith
  have key : |t*l - r*n| ≤ n/2 := by
    have he : t*l - r*n = n * (t*l/n - r) := by
      field_simp
      ring
    rw [he, abs_mul, abs_of_pos hn]
    calc n * |t*l/n - r| ≤ n * (1/2) := by
          exact mul_le_mul_of_nonneg_left hr (le_of_lt hn)
      _ = n/2 := by ring
  have hdiff : (l - r)/(n - t) - r/t = (t*l - r*n)/(t*(n-t)) := by
    field_simp
    ring
  rw [hdiff, abs_div, abs_of_pos (mul_pos ht hnt)]
  rcases le_total (n - t) t with hmin | hmin
  · rw [min_eq_left hmin, div_le_div_iff₀ (mul_pos ht hnt) hnt]
    nlinarith [key, abs_nonneg (t*l - r*n)]
  · rw [min_eq_right hmin, div_le_div_iff₀ (mul_pos ht hnt) ht]
    nlinarith [key, abs_nonneg (t*l - r*n)]

/-- C7: on any input dataset the Partitioner produces disjoint train and
evaluation index sets covering all records, the evaluation set has exactly
`round(0.2 * N)` records, and (whenever both partitions are nonempty) the
Lost fractions of the two partitions differ by at most
`1 / min(|train|, |evaluation|)`. -/
theorem stratified_split_spec (y : List Bool) (seed : ℕ) :
    List.Disjoint (trainIdx y seed) (testIdx y seed)
    ∧ (∀ i, i < y.length → i ∈ trainIdx y seed ∨ i ∈ testIdx y seed)
    ∧ (∀ i, i ∈ trainIdx y seed → i < y.length)
    ∧ (∀ i, i ∈ testIdx y seed → i < y.length)
    ∧ (testIdx y seed).length = (round ((2:ℚ)/10 * (y.length : ℚ))).toNat
    ∧ (0 < evalSize y.length → evalSize y.length < y.length →
        |fracLost y (trainIdx y seed) - fracLost y (testIdx y seed)|
          ≤ 1 / min (((trainIdx y seed).length : ℚ)) (((testIdx y seed).length : ℚ))) := by
  refine ⟨train_test_disjoint y seed, train_test_cover y seed,
    fun i h => trainIdx_mem_lt h, fun i h => testIdx_mem_lt h, ?_, ?_⟩
  · rw [testIdx_length]
    unfold evalSize
    have h : (2:ℚ)/10 * (y.length : ℚ) = (y.length : ℚ) / 5 := by ring
    rw [h]
  · intro h1 h2
    have hLk := evalLostCount_le_lost y
    have htN := evalSize_le y.length
    unfold fracLost
    rw [testIdx_countP_lost, testIdx_length, trainIdx_countP_lost, trainIdx_length]
    have hcast1 : ((y.length - evalSize y.length : ℕ) : ℚ)
        = (y.length : ℚ) - (evalSize y.length : ℚ) := Nat.cast_sub htN
    have hcast2 : (((lostIdx y).length - evalLostCount y : ℕ) : ℚ)
        = ((lostIdx y).length : ℚ) - (evalLostCount y : ℚ) := Nat.cast_sub hLk
    rw [hcast1, hcast2]
    apply frac_bound_algebra
    · exact_mod_cast h1
    · exact_mod_cast h2
    · unfold evalLostCount
      have hx0 : 0 ≤ (evalSize y.length : ℚ) * ((lostIdx y).length : ℚ) / (y.length : ℚ) := by
        positivity
      rw [round_toNat_cast_q hx0]
      exact abs_sub_round _

theorem stratified_split_spec_witness :
    |fracLost wy (trainIdx wy 42) - fracLost wy (testIdx wy 42)|
      ≤ 1 / min (((trainIdx wy 42).length : ℚ)) (((testIdx wy 42).length : ℚ)) :=
  (stratified_split_spec wy 42).2.2.2.2.2
    (by norm_num [wy, evalSize, round_eq])
    (by norm_num [wy, evalSize, round_eq])

end RiskEngine
